import Mathlib

/-!
Verification development for the WAD music player repository.

The development shallowly embeds the pure core of the three pipeline
stages the specification describes:

* `src/mus.rs` — the MUS bytecode decoder (`mus_to_smf` and its helpers
  `map_channel`, `map_controller`, `read_var_time`);
* `src/midi.rs` — the timeline builder (`build_timeline`);
* `src/wad.rs` — the archive prefix listing (`list_with_prefixes`).

Machine integers are embedded as `Nat` with explicit masks or `% 2 ^ 32`
exactly where the Rust code relies on fixed-width behaviour (the u32
left-shift inside `read_var_time`, the `saturating_add` on the pending
delta).  Byte-slice inputs become `List Nat`; the Rust side guarantees
each element is below 256, and every definition applies the same bit
masks as the source, so no extra side condition is needed.  The `f64`
arithmetic of `build_timeline` is embedded as exact rational arithmetic
(`ℚ`), with the final `as u64` cast of a non-negative value embedded as
`Int.floor` followed by `Int.toNat`.  Rust `String` lump names are
embedded as `List Char` (the names involved are ASCII).
-/

namespace WadMusic

/-! ### Data model of the midly subset used by the repository -/

/-- Track format stored in the SMF header (midly `Format`). -/
inductive SmfFormat
  | singleTrack
  | parallel
  | sequential
deriving DecidableEq, Repr

/-- Timing stored in the SMF header: metrical pulses per quarter note, or
the SMPTE variant the code only handles through a fallback. -/
inductive Timing
  | metrical (ppq : Nat)
  | other
deriving DecidableEq, Repr

/-- The midly channel-voice messages used by the repository. -/
inductive MidiMessage
  | NoteOff (key vel : Nat)
  | NoteOn (key vel : Nat)
  | Aftertouch (key vel : Nat)
  | Controller (controller value : Nat)
  | ProgramChange (program : Nat)
  | ChannelAftertouch (vel : Nat)
  | PitchBend (bend : Nat)
deriving DecidableEq, Repr

/-- The midly meta messages the repository inspects; everything else is
collapsed into `OtherMeta`, which both the decoder and the timeline
builder ignore. -/
inductive MetaMessage
  | Tempo (usPerQn : Nat)
  | EndOfTrack
  | OtherMeta
deriving DecidableEq, Repr

/-- A midly `TrackEventKind`: channel-voice message, meta message, or one
of the kinds (SysEx, escape) the repository never touches. -/
inductive TrackEventKind
  | Midi (channel : Nat) (message : MidiMessage)
  | Meta (m : MetaMessage)
  | OtherKind
deriving DecidableEq, Repr

/-- A midly `TrackEvent`: delta time in ticks plus an event kind. -/
structure TrackEvent where
  delta : Nat
  kind : TrackEventKind
deriving DecidableEq, Repr

/-- The SMF header: format and timing. -/
structure SmfHeader where
  format : SmfFormat
  timing : Timing
deriving DecidableEq, Repr

/-- A parsed standard MIDI file: header plus tracks. -/
structure Smf where
  header : SmfHeader
  tracks : List (List TrackEvent)
deriving DecidableEq, Repr

/-! ### mus.rs — the MUS bytecode decoder -/

/-- `map_channel` from src/mus.rs: MUS channel 15 (drums) goes to GM
channel 9, channels 9..14 shift up by one, the rest are unchanged. -/
def map_channel (ch_mus : Nat) : Nat :=
  if ch_mus = 15 then 9
  else if 9 ≤ ch_mus then ch_mus + 1
  else ch_mus

/-- `map_controller` from src/mus.rs: the fixed MUS-controller to
MIDI-controller lookup table; unmapped ids give `none`. -/
def map_controller (c : Nat) : Option Nat :=
  match c with
  | 1 => some 0
  | 2 => some 1
  | 3 => some 7
  | 4 => some 10
  | 5 => some 11
  | 6 => some 91
  | 7 => some 93
  | 8 => some 64
  | 9 => some 67
  | 10 => some 120
  | 11 => some 123
  | _ => none

/-- Loop body of `read_var_time` from src/mus.rs: big-endian base-128
accumulation, one byte per step, stopping at the first byte with a clear
top bit.  The `val << 7` is a u32 shift, hence the `% 2 ^ 32`. -/
def readVarAux : List Nat → Nat → Nat → Nat × Nat
  | [], val, used => (val, used)
  | b :: rest, val, used =>
    let used := used + 1
    let val := ((val <<< 7) % 2 ^ 32) ||| (b &&& 0x7F)
    if b &&& 0x80 = 0 then (val, used) else readVarAux rest val used

/-- `read_var_time` from src/mus.rs: returns the decoded delta value and
the number of bytes consumed (0 on empty input). -/
def read_var_time (bytes : List Nat) : Nat × Nat :=
  readVarAux bytes 0 0

/-- Pitch-wheel rescaling from the type-2 branch of `mus_to_smf`: the
byte is re-centred at 128 in i32 arithmetic, scaled by 64, offset by 8192
and clamped into the 14-bit range. -/
def bend14 (v : Nat) : Nat :=
  (max 0 (min (8192 + ((v : Int) - 128) * 64) 16383)).toNat

/-- Result of decoding one MUS instruction (the body of the `match ty`
in `mus_to_smf`, without the trailing delta-time read): either the loop
breaks, returning the track so far, or it continues with an updated
read position, per-channel remembered velocities, pending delta and
track. -/
inductive MusStep
  | halt (track : List TrackEvent)
  | next (i : Nat) (lastVel : List Nat) (pending : Nat) (track : List TrackEvent)
deriving DecidableEq, Repr

/-- One iteration of the decode loop of `mus_to_smf` (src/mus.rs lines
41–148) up to but not including the optional trailing delta-time field:
reads the instruction byte at `i0`, dispatches on the 3-bit type in bits
4..6, consumes the payload bytes, and emits at most one event.  Running
out of bytes mid-instruction is the Rust `break`, embedded as `halt`. -/
def musStep (stream : List Nat) (i0 : Nat) (lastVel : List Nat)
    (pending : Nat) (track : List TrackEvent) : MusStep :=
  match (stream.getD i0 0 >>> 4) &&& 0x07 with
  | 0 =>
    if i0 + 1 < stream.length then
      .next (i0 + 2) lastVel 0
        (track ++ [⟨pending, .Midi (map_channel (stream.getD i0 0 &&& 0x0F))
          (.NoteOff (stream.getD (i0 + 1) 0 &&& 0x7F) 0)⟩])
    else .halt track
  | 1 =>
    if i0 + 1 < stream.length then
      if stream.getD (i0 + 1) 0 &&& 0x80 ≠ 0 then
        if i0 + 2 < stream.length then
          .next (i0 + 3) (lastVel.set (stream.getD i0 0 &&& 0x0F) (stream.getD (i0 + 2) 0)) 0
            (track ++ [⟨pending, .Midi (map_channel (stream.getD i0 0 &&& 0x0F))
              (.NoteOn (stream.getD (i0 + 1) 0 &&& 0x7F) (min (stream.getD (i0 + 2) 0) 127))⟩])
        else .halt track
      else
        .next (i0 + 2) lastVel 0
          (track ++ [⟨pending, .Midi (map_channel (stream.getD i0 0 &&& 0x0F))
            (.NoteOn (stream.getD (i0 + 1) 0)
              (min (lastVel.getD (stream.getD i0 0 &&& 0x0F) 0) 127))⟩])
    else .halt track
  | 2 =>
    if i0 + 1 < stream.length then
      .next (i0 + 2) lastVel 0
        (track ++ [⟨pending, .Midi (map_channel (stream.getD i0 0 &&& 0x0F))
          (.PitchBend (bend14 (stream.getD (i0 + 1) 0)))⟩])
    else .halt track
  | 3 =>
    if i0 + 1 < stream.length then .next (i0 + 2) lastVel pending track
    else .halt track
  | 4 =>
    if i0 + 1 < stream.length then
      if stream.getD (i0 + 1) 0 = 0 then
        if i0 + 2 < stream.length then
          .next (i0 + 3) lastVel 0
            (track ++ [⟨pending, .Midi (map_channel (stream.getD i0 0 &&& 0x0F))
              (.ProgramChange (stream.getD (i0 + 2) 0))⟩])
        else .halt track
      else
        if i0 + 2 < stream.length then
          match map_controller (stream.getD (i0 + 1) 0) with
          | some cc =>
            .next (i0 + 3) lastVel 0
              (track ++ [⟨pending, .Midi (map_channel (stream.getD i0 0 &&& 0x0F))
                (.Controller cc (stream.getD (i0 + 2) 0))⟩])
          | none => .next (i0 + 3) lastVel 0 track
        else .halt track
    else .halt track
  | 5 => .next (i0 + 1) lastVel pending track
  | 6 => .halt track
  | 7 =>
    if i0 + 1 < stream.length then .next (i0 + 2) lastVel pending track
    else .halt track
  | _ => .next (i0 + 1) lastVel pending track

/-- The decode loop of `mus_to_smf`.  The Rust `while i < stream.len()`
is embedded with a fuel parameter: every iteration advances `i` by at
least one, so starting the fuel at `stream.length` (as `mus_to_smf`
below does) the fuel can only run out once `i ≥ stream.length`, i.e. at
the same point the Rust loop exits.  After each non-breaking step, if
bit 7 of the instruction byte was set, a variable-length delta is read
and saturating-added (u32) into the pending delta. -/
def musLoop (stream : List Nat) : Nat → Nat → List Nat → Nat → List TrackEvent →
    List TrackEvent
  | 0, _, _, _, track => track
  | fuel + 1, i, lastVel, pending, track =>
    if i < stream.length then
      match musStep stream i lastVel pending track with
      | .halt tr => tr
      | .next i1 lv1 p1 tr1 =>
        if stream.getD i 0 &&& 0x80 ≠ 0 then
          musLoop stream fuel (i1 + (read_var_time (stream.drop i1)).2) lv1
            (min (p1 + (read_var_time (stream.drop i1)).1) (2 ^ 32 - 1)) tr1
        else
          musLoop stream fuel i1 lv1 p1 tr1
    else track

/-- The four magic bytes of a MUS lump. -/
def musMagic : List Nat := [0x4D, 0x55, 0x53, 0x1A]

/-- Little-endian u16 score length at header offset 4. -/
def musScoreLen (mus : List Nat) : Nat :=
  mus.getD 4 0 + 256 * mus.getD 5 0

/-- Little-endian u16 score start offset at header offset 6. -/
def musScoreStart (mus : List Nat) : Nat :=
  mus.getD 6 0 + 256 * mus.getD 7 0

/-- The score slice of the lump, the Rust `&mus[score_start..end]`. -/
def musStream (mus : List Nat) : List Nat :=
  (mus.drop (musScoreStart mus)).take (musScoreLen mus)

/-- `mus_to_smf` from src/mus.rs: validates the 16-byte header and the
declared score range, then decodes the score slice into a single track
that starts with a synthetic tempo event (1 000 000 µs per quarter note
at PPQ 140) and ends with an end-of-track marker.  The `checked_add`
guarding `score_start + score_len` cannot overflow `Nat` and is embedded
as plain addition. -/
def mus_to_smf (mus : List Nat) : Except String Smf :=
  if mus.length < 16 ∨ mus.take 4 ≠ musMagic then .error "not a MUS"
  else if musScoreStart mus + musScoreLen mus > mus.length then
    .error "MUS score range out of bounds"
  else
    .ok ⟨⟨.singleTrack, .metrical 140⟩,
      [musLoop (musStream mus) (musStream mus).length 0 (List.replicate 16 127) 0
          [⟨0, .Meta (.Tempo 1000000)⟩] ++ [⟨0, .Meta .EndOfTrack⟩]]⟩

/-! ### midi.rs — the timeline builder -/

/-- The normalized playback message `Msg` from src/midi.rs.  The Rust
`Tempo(f64)` payload is embedded as `ℚ`. -/
inductive Msg
  | NoteOn (ch key vel : Nat)
  | NoteOff (ch key vel : Nat)
  | Program (ch prog : Nat)
  | Control (ch controller value : Nat)
  | PitchBend (ch : Nat) (bend : Nat)
  | AfterTouch (ch key vel : Nat)
  | ChannelAftertouch (ch vel : Nat)
  | Tempo (usPerQn : ℚ)
deriving DecidableEq, Repr

/-- `Timed` from src/midi.rs: a message at an absolute microsecond
timestamp. -/
structure Timed where
  t_us : Nat
  msg : Msg
deriving DecidableEq, Repr

/-- `Timeline` from src/midi.rs. -/
structure Timeline where
  events : List Timed
  last_t_us : Nat
  ppq : ℚ
  initial_us_per_qn : ℚ
deriving DecidableEq, Repr

/-- The timestamp computation of `build_timeline` (src/midi.rs lines
108–109): absolute ticks over PPQ times the current tempo, scaled to
seconds and back to microseconds, then cast to u64.  The f64 arithmetic
is embedded exactly over `ℚ`; the value is non-negative, so the Rust
`as u64` truncation is `Int.floor` followed by `Int.toNat`. -/
def timeUs (absTicks : Nat) (ppq usPerQn : ℚ) : Nat :=
  (⌊(absTicks : ℚ) / ppq * (usPerQn / 1000000) * 1000000⌋).toNat

/-- Normalization of one channel-voice message in `build_timeline`
(src/midi.rs lines 122–150): a NoteOn with velocity 0 becomes a NoteOff,
every other message maps to its `Msg` counterpart. -/
def normMidi (ch : Nat) : MidiMessage → Msg
  | .NoteOn key vel => if vel = 0 then .NoteOff ch key 0 else .NoteOn ch key vel
  | .NoteOff key vel => .NoteOff ch key vel
  | .ProgramChange program => .Program ch program
  | .Controller controller value => .Control ch controller value
  | .PitchBend bend => .PitchBend ch bend
  | .Aftertouch key vel => .AfterTouch ch key vel
  | .ChannelAftertouch vel => .ChannelAftertouch ch vel

/-- The per-track loop of `build_timeline` (src/midi.rs lines 99–156):
deltas are accumulated into an absolute tick counter, each event is
stamped with `timeUs` under the tempo in effect before the event, and a
tempo meta event updates the running tempo for the events after it.
Meta events other than tempo, and non-midi kinds, emit nothing. -/
def processTrack (ppq : ℚ) : List TrackEvent → Nat → ℚ → List Timed
  | [], _, _ => []
  | e :: rest, absTicks, usPerQn =>
    match e.kind with
    | .Meta (.Tempo tp) =>
      ⟨timeUs (absTicks + e.delta) ppq usPerQn, .Tempo (tp : ℚ)⟩ ::
        processTrack ppq rest (absTicks + e.delta) (tp : ℚ)
    | .Meta _ => processTrack ppq rest (absTicks + e.delta) usPerQn
    | .Midi ch message =>
      ⟨timeUs (absTicks + e.delta) ppq usPerQn, normMidi ch message⟩ ::
        processTrack ppq rest (absTicks + e.delta) usPerQn
    | .OtherKind => processTrack ppq rest (absTicks + e.delta) usPerQn

/-- The initial tempo scan of `build_timeline` (src/midi.rs lines
87–94): the first tempo meta event found walking the tracks in order. -/
def firstTempo (tracks : List (List TrackEvent)) : Option Nat :=
  tracks.findSome? fun tr =>
    tr.findSome? fun e =>
      match e.kind with
      | .Meta (.Tempo tp) => some tp
      | _ => none

/-- Timestamp order on timed events, the key of the final sort in
`build_timeline`. -/
def timedLE (a b : Timed) : Prop := a.t_us ≤ b.t_us

instance : DecidableRel timedLE := fun a b => Nat.decLe a.t_us b.t_us

instance : IsTotal Timed timedLE := ⟨fun a b => Nat.le_total a.t_us b.t_us⟩

instance : IsTrans Timed timedLE := ⟨fun _ _ _ => Nat.le_trans⟩

/-- `build_timeline` from src/midi.rs: PPQ from the header (480 for the
SMPTE fallback), initial tempo from the first tempo meta event (500 000
µs per quarter note if none), each track converted independently by
`processTrack`, the per-track event lists concatenated in track order,
and the result sorted by timestamp.  The Rust `sort_by_key` is a stable
sort, embedded by the (stable) `List.insertionSort`; `last_t_us` is the
timestamp of the final sorted event, 0 when there is none.  The PPQ
choice (header field, 480 on the SMPTE fallback) is split into
`smfPpq`. -/
def smfPpq (smf : Smf) : ℚ :=
  match smf.header.timing with
  | .metrical t => (t : ℚ)
  | .other => 480

/-- The seed tempo of `build_timeline`: the first tempo meta event of
the file, defaulting to 500 000 µs per quarter note (120 BPM). -/
def smfDefaultTempo (smf : Smf) : ℚ :=
  match firstTempo smf.tracks with
  | some tp => (tp : ℚ)
  | none => 500000

/-- The unsorted event pool of `build_timeline`: each track converted
independently by `processTrack` and the results concatenated in track
order. -/
def timelineEvents (smf : Smf) : List Timed :=
  (smf.tracks.map fun tr => processTrack (smfPpq smf) tr 0 (smfDefaultTempo smf)).flatten

def build_timeline (smf : Smf) : Timeline :=
  ⟨List.insertionSort timedLE (timelineEvents smf),
    (((List.insertionSort timedLE (timelineEvents smf)).getLast?).map Timed.t_us).getD 0,
    smfPpq smf, smfDefaultTempo smf⟩

/-! ### wad.rs — the archive prefix listing -/

/-- A WAD directory entry (`Lump` from src/wad.rs); the name is an
upper-cased ASCII string, embedded as a character list. -/
structure Lump where
  name : List Char
  filepos : Nat
  size : Nat
deriving DecidableEq, Repr

/-- ASCII upper-casing of one character (Rust `to_ascii_uppercase`). -/
def asciiUpperChar (c : Char) : Char :=
  if 97 ≤ c.toNat ∧ c.toNat ≤ 122 then Char.ofNat (c.toNat - 32) else c

/-- ASCII upper-casing of a string (as a character list). -/
def asciiUpper (s : List Char) : List Char :=
  s.map asciiUpperChar

/-- `list_with_prefixes` from src/wad.rs: upper-case the supplied
prefixes, then keep, in file order, the lumps whose name starts with any
of them. -/
def list_with_prefixes (lumps : List Lump) (prefixes : List (List Char)) : List Lump :=
  lumps.filter fun l => (prefixes.map asciiUpper).any fun p => p.isPrefixOf l.name

/-- Whether a timed message is a tempo marker; used only to state the
round-trip claim below. -/
def Timed.isTempo : Timed → Bool
  | ⟨_, .Tempo _⟩ => true
  | _ => false

/-- The track carried by a `MusStep`, whether the step halted or
continued. -/
def MusStep.track : MusStep → List TrackEvent
  | .halt t => t
  | .next _ _ _ t => t

/-- Every event `musStep` can append to the track: a channel-voice event
whose channel is `map_channel` of a 4-bit source channel, and whose
velocity, when the message is a NoteOn, has been clamped to 127. -/
def PushedOk (e : TrackEvent) : Prop :=
  ∃ c, c < 16 ∧ ∃ m, e.kind = .Midi (map_channel c) m ∧
    ∀ key vel, m = .NoteOn key vel → vel ≤ 127

/-! ### Concrete inputs used by the claim theorems and witnesses -/

/-- Minimal MUS lump: header declaring a 3-byte score at offset 16,
score = play-note ch0 key60 without explicit velocity, end-of-score. -/
def c2bytes : List Nat :=
  [0x4D, 0x55, 0x53, 0x1A, 3, 0, 16, 0, 0, 0, 0, 0, 0, 0, 0, 0, 0x10, 60, 0x60]

def c2track : List TrackEvent :=
  [⟨0, .Meta (.Tempo 1000000)⟩, ⟨0, .Midi 0 (.NoteOn 60 127)⟩, ⟨0, .Meta .EndOfTrack⟩]

def c2smf : Smf := ⟨⟨.singleTrack, .metrical 140⟩, [c2track]⟩

/-- MUS lump whose score is: measure-end tagged with delta time 10, a
controller-change with unrecognized controller id 100, a release-note,
end-of-score. -/
def c3bytes : List Nat :=
  [0x4D, 0x55, 0x53, 0x1A, 8, 0, 16, 0, 0, 0, 0, 0, 0, 0, 0, 0,
    0xD0, 0x0A, 0x40, 100, 5, 0x00, 60, 0x60]

def c3track : List TrackEvent :=
  [⟨0, .Meta (.Tempo 1000000)⟩, ⟨0, .Midi 0 (.NoteOff 60 0)⟩, ⟨0, .Meta .EndOfTrack⟩]

def c3smf : Smf := ⟨⟨.singleTrack, .metrical 140⟩, [c3track]⟩

/-- MUS lump whose score is one play-note on channel 0, key 60, with an
explicit velocity byte equal to 0, then end-of-score. -/
def c4bytes : List Nat :=
  [0x4D, 0x55, 0x53, 0x1A, 4, 0, 16, 0, 0, 0, 0, 0, 0, 0, 0, 0, 0x10, 0xBC, 0x00, 0x60]

def c4track : List TrackEvent :=
  [⟨0, .Meta (.Tempo 1000000)⟩, ⟨0, .Midi 0 (.NoteOn 60 0)⟩, ⟨0, .Meta .EndOfTrack⟩]

def c4smf : Smf := ⟨⟨.singleTrack, .metrical 140⟩, [c4track]⟩

/-- A one-event SMF whose only message is a NoteOn with non-zero
velocity. -/
def w4smf : Smf := ⟨⟨.singleTrack, .metrical 140⟩, [[⟨0, .Midi 0 (.NoteOn 60 5)⟩]]⟩

/-- MUS lump whose score plays key 60 with an explicit velocity byte of
200 (above the MIDI maximum), then key 62 reusing the remembered
velocity, then end-of-score. -/
def c10bytes : List Nat :=
  [0x4D, 0x55, 0x53, 0x1A, 6, 0, 16, 0, 0, 0, 0, 0, 0, 0, 0, 0,
    0x10, 0xBC, 200, 0x10, 62, 0x60]

def c10track : List TrackEvent :=
  [⟨0, .Meta (.Tempo 1000000)⟩, ⟨0, .Midi 0 (.NoteOn 60 127)⟩,
    ⟨0, .Midi 0 (.NoteOn 62 127)⟩, ⟨0, .Meta .EndOfTrack⟩]

def c10smf : Smf := ⟨⟨.singleTrack, .metrical 140⟩, [c10track]⟩

/-- An archive lump named D_TEST. -/
def wDTest : Lump := ⟨['D', '_', 'T', 'E', 'S', 'T'], 17, 4⟩

/-- An archive lump named HELLO. -/
def wHello : Lump := ⟨['H', 'E', 'L', 'L', 'O'], 12, 5⟩

/-! ### Helper lemmas -/

theorem pushedOk_of_push (ev : Nat) (m : MidiMessage)
    (hm : ∀ key vel, m = .NoteOn key vel → vel ≤ 127) (d : Nat) :
    PushedOk ⟨d, .Midi (map_channel (ev &&& 0x0F)) m⟩ := by
  refine ⟨ev &&& 0x0F, ?_, m, rfl, hm⟩
  have h := Nat.and_le_right (n := ev) (m := 0x0F)
  omega

theorem musStep_track_mem (stream : List Nat) (i0 : Nat) (lv : List Nat)
    (pending : Nat) (track : List TrackEvent) :
    ∀ e ∈ (musStep stream i0 lv pending track).track, e ∈ track ∨ PushedOk e := by
  unfold musStep
  split
  all_goals repeat' split
  all_goals intro e he
  all_goals simp only [MusStep.track, List.mem_append, List.mem_singleton] at he
  all_goals
    first
    | exact Or.inl he
    | rcases he with he | he
      · exact Or.inl he
      · subst he
        refine Or.inr (pushedOk_of_push _ _ ?_ _)
        intro key vel h
        cases h
        all_goals exact Nat.min_le_right _ _

theorem musLoop_mem (stream : List Nat) :
    ∀ (fuel i : Nat) (lv : List Nat) (pending : Nat) (track : List TrackEvent),
      ∀ e ∈ musLoop stream fuel i lv pending track, e ∈ track ∨ PushedOk e := by
  intro fuel
  induction fuel with
  | zero => intro i lv pending track e he; exact Or.inl he
  | succ fuel ih =>
    intro i lv pending track e he
    unfold musLoop at he
    split at he
    · split at he
      next tr heq =>
        have h2 := musStep_track_mem stream i lv pending track e
        rw [heq] at h2
        exact h2 he
      next i1 lv1 p1 tr1 heq =>
        have hmem : ∀ x ∈ tr1, x ∈ track ∨ PushedOk x := by
          intro x hx
          have h2 := musStep_track_mem stream i lv pending track x
          rw [heq] at h2
          exact h2 hx
        split at he
        · rcases ih _ _ _ _ e he with h | h
          · exact hmem e h
          · exact Or.inr h
        · rcases ih _ _ _ _ e he with h | h
          · exact hmem e h
          · exact Or.inr h
    · exact Or.inl he

theorem mus_to_smf_track_mem (mus : List Nat) (smf : Smf)
    (h : mus_to_smf mus = .ok smf) (tr : List TrackEvent) (htr : tr ∈ smf.tracks)
    (e : TrackEvent) (he : e ∈ tr) :
    e = ⟨0, .Meta (.Tempo 1000000)⟩ ∨ e = ⟨0, .Meta .EndOfTrack⟩ ∨ PushedOk e := by
  unfold mus_to_smf at h
  split at h
  · cases h
  · split at h
    · cases h
    · rw [Except.ok.injEq] at h
      subst h
      simp only [List.mem_singleton] at htr
      subst htr
      rcases List.mem_append.1 he with he | he
      · rcases musLoop_mem _ _ _ _ _ _ e he with he | he
        · simp only [List.mem_singleton] at he
          exact Or.inl he
        · exact Or.inr (Or.inr he)
      · simp only [List.mem_singleton] at he
        exact Or.inr (Or.inl he)

/-- No event produced by `processTrack` carries a NoteOn message with
velocity 0: the builder normalizes those to NoteOff. -/
theorem processTrack_no_vel0 (ppq : ℚ) :
    ∀ (tr : List TrackEvent) (absTicks : Nat) (usPerQn : ℚ),
      ∀ e ∈ processTrack ppq tr absTicks usPerQn, ∀ ch key, e.msg ≠ .NoteOn ch key 0 := by
  intro tr
  induction tr with
  | nil => intro absTicks usPerQn e he; simp [processTrack] at he
  | cons hd tl ih =>
    intro absTicks usPerQn e he ch key
    unfold processTrack at he
    split at he
    · rcases List.mem_cons.1 he with he | he
      · subst he; simp
      · exact ih _ _ e he ch key
    · exact ih _ _ e he ch key
    · rcases List.mem_cons.1 he with he | he
      · subst he
        rename_i ch0 m _
        cases m with
        | NoteOn k v =>
          simp only [normMidi]
          split
          · simp
          · simp only [ne_eq, Msg.NoteOn.injEq, not_and]
            rename_i hv
            intro _ _ h0
            exact absurd h0 hv
        | NoteOff k v => simp [normMidi]
        | Aftertouch k v => simp [normMidi]
        | Controller c v => simp [normMidi]
        | ProgramChange p => simp [normMidi]
        | ChannelAftertouch v => simp [normMidi]
        | PitchBend b => simp [normMidi]
      · exact ih _ _ e he ch key
    · exact ih _ _ e he ch key

/-! ### Claim theorems -/

/-- C1: for every input SMF, the event list of the Timeline returned by
build_timeline is non-decreasing by timestamp, and last_t_us equals the
timestamp of the final event of that list (0 when the list is empty). -/
theorem build_timeline_sorted_last (smf : Smf) :
    ((build_timeline smf).events.Pairwise fun a b => a.t_us ≤ b.t_us) ∧
    (build_timeline smf).last_t_us =
      (((build_timeline smf).events.getLast?).map Timed.t_us).getD 0 := by
  constructor
  · exact (List.sorted_insertionSort timedLE _).imp fun h => h
  · rfl

/-- C5: mus_to_smf returns an error exactly when the input is shorter
than the 16-byte header, the magic tag is absent, or the declared score
range ends beyond the input; every other input decodes to Ok. -/
theorem mus_to_smf_error_iff (mus : List Nat) :
    (∃ err, mus_to_smf mus = .error err) ↔
      (mus.length < 16 ∨ mus.take 4 ≠ musMagic ∨
        mus.length < musScoreStart mus + musScoreLen mus) := by
  constructor
  · intro ⟨err, herr⟩
    unfold mus_to_smf at herr
    split at herr
    · rename_i h
      rcases h with h | h
      · exact Or.inl h
      · exact Or.inr (Or.inl h)
    · split at herr
      · rename_i h
        exact Or.inr (Or.inr (by omega))
      · cases herr
  · intro h
    unfold mus_to_smf
    split
    · exact ⟨"not a MUS", rfl⟩
    · rename_i hnot
      push_neg at hnot
      obtain ⟨h16, hmagic⟩ := hnot
      split
      · exact ⟨"MUS score range out of bounds", rfl⟩
      · rename_i hrange
        rcases h with h | h | h
        · omega
        · exact absurd hmagic h
        · omega

/-- C6: processing one event, every message it emits is stamped with the
timestamp computed from the accumulated ticks under the tempo in effect
before the event; a tempo-set event changes the tempo only for the
remaining events of the track, every other event leaves it unchanged. -/
theorem processTrack_tempo_order (ppq : ℚ) (absTicks : Nat) (usPerQn : ℚ)
    (e : TrackEvent) (rest : List TrackEvent) :
    ∃ emitted nextTempo,
      processTrack ppq (e :: rest) absTicks usPerQn =
        emitted ++ processTrack ppq rest (absTicks + e.delta) nextTempo ∧
      (∀ te ∈ emitted, te.t_us = timeUs (absTicks + e.delta) ppq usPerQn) ∧
      (∀ tp, e.kind = .Meta (.Tempo tp) → nextTempo = (tp : ℚ)) ∧
      ((∀ tp, e.kind ≠ .Meta (.Tempo tp)) → nextTempo = usPerQn) := by
  cases hk : e.kind with
  | Midi ch m =>
    refine ⟨[⟨timeUs (absTicks + e.delta) ppq usPerQn, normMidi ch m⟩], usPerQn, ?_, ?_, ?_, ?_⟩
    · simp [processTrack, hk]
    · intro te hte
      simp only [List.mem_singleton] at hte
      subst hte
      rfl
    · intro tp htp
      cases htp
    · intro _
      rfl
  | Meta mm =>
    cases mm with
    | Tempo tp =>
      refine ⟨[⟨timeUs (absTicks + e.delta) ppq usPerQn, .Tempo (tp : ℚ)⟩], (tp : ℚ),
        ?_, ?_, ?_, ?_⟩
      · simp [processTrack, hk]
      · intro te hte
        simp only [List.mem_singleton] at hte
        subst hte
        rfl
      · intro tp2 htp
        cases htp
        rfl
      · intro h
        exact absurd rfl (h tp)
    | EndOfTrack =>
      refine ⟨[], usPerQn, ?_, ?_, ?_, ?_⟩
      · simp [processTrack, hk]
      · intro te hte
        cases hte
      · intro tp htp
        cases htp
      · intro _
        rfl
    | OtherMeta =>
      refine ⟨[], usPerQn, ?_, ?_, ?_, ?_⟩
      · simp [processTrack, hk]
      · intro te hte
        cases hte
      · intro tp htp
        cases htp
      · intro _
        rfl
  | OtherKind =>
    refine ⟨[], usPerQn, ?_, ?_, ?_, ?_⟩
    · simp [processTrack, hk]
    · intro te hte
      cases hte
    · intro tp htp
      cases htp
    · intro _
      rfl

/-- C2: the minimal synthetic MUS blob decodes to exactly one synthetic
tempo event, one NoteOn on channel 0 with key 60 and the default
velocity 127, and one end-of-track marker, in that order; build_timeline
on the result produces exactly one non-tempo timed event, at timestamp
0. -/
theorem mus_roundtrip_minimal :
    mus_to_smf c2bytes = .ok c2smf ∧
    (build_timeline c2smf).events = [⟨0, .Tempo 1000000⟩, ⟨0, .NoteOn 0 60 127⟩] ∧
    ((build_timeline c2smf).events.filter fun te => ! te.isTempo) =
      [⟨0, .NoteOn 0 60 127⟩] := by
  have hev : (build_timeline c2smf).events = [⟨0, .Tempo 1000000⟩, ⟨0, .NoteOn 0 60 127⟩] := by
    norm_num [build_timeline, timelineEvents, smfPpq, smfDefaultTempo, firstTempo,
      processTrack, timeUs, normMidi, timedLE, List.insertionSort, List.orderedInsert,
      c2smf, c2track, List.findSome?]
  refine ⟨rfl, hev, ?_⟩
  rw [hev]
  norm_num [List.filter, Timed.isTempo]

/-- C3 counterexample: the delta time 10 accumulated by the tagged
measure-end instruction of c3bytes is discarded by the following
unrecognized controller-change, so no event of the decoded track carries
it — the release-note is emitted with delta 0, not 10. -/
theorem pending_delta_discarded_cx :
    mus_to_smf c3bytes = .ok c3smf ∧
    ∀ tr ∈ c3smf.tracks, ∀ e ∈ tr, e.delta ≠ 10 :=
  ⟨by rfl, by decide⟩

/-- C3 amended: a controller-change instruction whose controller id is
unrecognized and nonzero, with both payload bytes available and no
trailing delta field, is consumed without emitting an event, and the
decode loop continues with the pending delta reset to zero — the
accumulated delta is discarded, not attached to the next event. -/
theorem musLoop_unrecognized_controller_resets (stream : List Nat) (fuel i : Nat)
    (lv : List Nat) (pending : Nat) (track : List TrackEvent)
    (hlen : i + 2 < stream.length)
    (hty : (stream.getD i 0 >>> 4) &&& 0x07 = 4)
    (hdelta : stream.getD i 0 &&& 0x80 = 0)
    (hctrl : stream.getD (i + 1) 0 ≠ 0)
    (hmap : map_controller (stream.getD (i + 1) 0) = none) :
    musLoop stream (fuel + 1) i lv pending track =
      musLoop stream fuel (i + 3) lv 0 track := by
  have h1 : i < stream.length := by omega
  have h2 : i + 1 < stream.length := by omega
  have hstep : musStep stream i lv pending track = .next (i + 3) lv 0 track := by
    unfold musStep
    split
    any_goals omega
    · rw [if_pos h2, if_neg hctrl, if_pos hlen, hmap]
    · rename_i h0x h1x h2x h3x h4x h5x h6x h7x
      exact absurd hty h4x
  simp only [musLoop]
  rw [if_pos h1, hstep]
  dsimp only
  rw [if_neg (by rw [hdelta]; exact fun hcon => hcon rfl)]

/-- Witness for the amended C3 theorem at a concrete stream. -/
theorem musLoop_unrecognized_controller_resets_witness :
    musLoop [0x40, 100, 5] 1 0 [] 7 [] = musLoop [0x40, 100, 5] 0 3 [] 0 [] :=
  musLoop_unrecognized_controller_resets [0x40, 100, 5] 0 0 [] 7 []
    (by decide) (by decide) (by decide) (by decide) (by decide)

/-- C4 counterexample: a note-start with explicit velocity 0 yields a
NoteOn with velocity 0 — not a NoteOff — in the track decoded by
mus_to_smf. -/
theorem vel0_noteOn_decoded_cx :
    mus_to_smf c4bytes = .ok c4smf ∧
    (∃ tr ∈ c4smf.tracks, ∃ e ∈ tr, e.kind = .Midi 0 (.NoteOn 60 0)) ∧
    ∀ tr ∈ c4smf.tracks, ∀ e ∈ tr, ∀ ch key vel, e.kind ≠ .Midi ch (.NoteOff key vel) :=
  ⟨by rfl, by decide, by simp [c4smf, c4track]⟩

/-- C4 amended: the decoder emits the NoteOn with velocity 0 unchanged;
the normalization to a note-stop happens in build_timeline, so no event
of any timeline carries a NoteOn message with velocity 0. -/
theorem timeline_no_vel0_noteOn (smf : Smf) (e : Timed)
    (he : e ∈ (build_timeline smf).events) (ch key : Nat) :
    e.msg ≠ .NoteOn ch key 0 := by
  have he2 : e ∈ timelineEvents smf :=
    (List.perm_insertionSort timedLE (timelineEvents smf)).subset he
  rcases List.mem_flatten.1 he2 with ⟨l, hl, hel⟩
  rcases List.mem_map.1 hl with ⟨tr, htr, rfl⟩
  exact processTrack_no_vel0 _ tr 0 _ e hel ch key

/-- Witness for the amended C4 theorem at a concrete timeline. -/
theorem timeline_no_vel0_noteOn_witness :
    (⟨0, Msg.NoteOn 0 60 5⟩ : Timed).msg ≠ Msg.NoteOn 0 60 0 := by
  have hev : (build_timeline w4smf).events = [⟨0, Msg.NoteOn 0 60 5⟩] := by
    norm_num [build_timeline, timelineEvents, smfPpq, smfDefaultTempo, firstTempo,
      processTrack, timeUs, normMidi, timedLE, List.insertionSort, List.orderedInsert,
      w4smf, List.findSome?]
  exact timeline_no_vel0_noteOn w4smf ⟨0, Msg.NoteOn 0 60 5⟩
    (by rw [hev]; exact List.mem_singleton_self _) 0 60

/-- C7: the channel map sends source channel 15 to 9, shifts source
channels 9 through 14 up by one, leaves source channels 0 through 8
unchanged; and every event a decode step of mus_to_smf appends to the
track carries the channel obtained by applying map_channel to that
instruction's own 4-bit source channel, the low four bits of the
instruction byte at the step's read position. -/
theorem mus_channel_map :
    map_channel 15 = 9 ∧
    (∀ c, 9 ≤ c → c ≤ 14 → map_channel c = c + 1) ∧
    (∀ c, c ≤ 8 → map_channel c = c) ∧
    ∀ (stream : List Nat) (i0 : Nat) (lv : List Nat) (pending : Nat)
      (track : List TrackEvent),
      ∀ e ∈ (musStep stream i0 lv pending track).track,
        e ∈ track ∨
          ∃ m, e.kind = .Midi (map_channel (stream.getD i0 0 &&& 0x0F)) m := by
  refine ⟨rfl, ?_, ?_, ?_⟩
  · intro c h9 h14
    unfold map_channel
    rw [if_neg (by omega), if_pos h9]
  · intro c h8
    unfold map_channel
    rw [if_neg (by omega), if_neg (by omega)]
  · intro stream i0 lv pending track
    unfold musStep
    split
    all_goals repeat' split
    all_goals intro e he
    all_goals simp only [MusStep.track, List.mem_append, List.mem_singleton] at he
    all_goals
      first
      | exact Or.inl he
      | rcases he with he | he
        · exact Or.inl he
        · subst he
          exact Or.inr ⟨_, rfl⟩

/-- Witness for C7: a shifted channel, an unchanged channel, and one
decode step on a play-note instruction whose source channel is 15 (the
MUS rhythm channel), whose emitted event carries channel map_channel 15
= 9. -/
theorem mus_channel_map_witness :
    map_channel 9 = 10 ∧ map_channel 5 = 5 ∧
    ((⟨0, .Midi 9 (.NoteOn 60 127)⟩ : TrackEvent) ∈ ([] : List TrackEvent) ∨
      ∃ m, (⟨0, .Midi 9 (.NoteOn 60 127)⟩ : TrackEvent).kind =
        .Midi (map_channel ([0x1F, 60, 0x60].getD 0 0 &&& 0x0F)) m) :=
  ⟨mus_channel_map.2.1 9 (by decide) (by decide),
    mus_channel_map.2.2.1 5 (by decide),
    mus_channel_map.2.2.2 [0x1F, 60, 0x60] 0 (List.replicate 16 127) 0 []
      ⟨0, .Midi 9 (.NoteOn 60 127)⟩ (by decide)⟩

/-- C8: on an archive holding a D_TEST lump and a HELLO lump (in either
file order), prefix-listing with any casing of the prefixes D_ and MUS_
returns exactly the D_TEST lump. -/
theorem list_with_prefixes_music (a b : Lump) (ps : List (List Char))
    (ha : a.name = ['D', '_', 'T', 'E', 'S', 'T'])
    (hb : b.name = ['H', 'E', 'L', 'L', 'O'])
    (hps : ps.map asciiUpper = [['D', '_'], ['M', 'U', 'S', '_']]) :
    list_with_prefixes [a, b] ps = [a] ∧ list_with_prefixes [b, a] ps = [a] := by
  have pa : ((ps.map asciiUpper).any fun p => p.isPrefixOf a.name) = true := by
    rw [hps, ha]
    decide
  have pb : ((ps.map asciiUpper).any fun p => p.isPrefixOf b.name) = false := by
    rw [hps, hb]
    decide
  constructor <;> simp [list_with_prefixes, List.filter, pa, pb]

/-- Witness for C8 with lower-case prefixes. -/
theorem list_with_prefixes_music_witness :
    list_with_prefixes [wDTest, wHello] [['d', '_'], ['m', 'u', 's', '_']] = [wDTest] ∧
    list_with_prefixes [wHello, wDTest] [['d', '_'], ['m', 'u', 's', '_']] = [wDTest] :=
  list_with_prefixes_music wDTest wHello [['d', '_'], ['m', 'u', 's', '_']]
    rfl rfl (by decide)

/-- C10: every NoteOn in a track decoded by mus_to_smf carries a
velocity of at most 127, the clamp being applied at each emission even
when the remembered per-channel velocity stores a larger raw byte. -/
theorem mus_noteOn_vel_clamped (mus : List Nat) (smf : Smf)
    (h : mus_to_smf mus = .ok smf) :
    ∀ tr ∈ smf.tracks, ∀ e ∈ tr, ∀ ch key vel,
      e.kind = .Midi ch (.NoteOn key vel) → vel ≤ 127 := by
  intro tr htr e he ch key vel hkind
  rcases mus_to_smf_track_mem mus smf h tr htr e he with h1 | h1 | h1
  · rw [h1] at hkind
    cases hkind
  · rw [h1] at hkind
    cases hkind
  · rcases h1 with ⟨c, hc, m2, hk2, hvel⟩
    rw [hkind] at hk2
    injection hk2 with hch hm
    exact hvel key vel hm.symm

/-- Witness for C10: a lump whose explicit velocity byte is 200; both
the immediate emission and the later reuse of the remembered velocity
are clamped to 127. -/
theorem mus_noteOn_vel_clamped_witness :
    mus_to_smf c10bytes = .ok c10smf ∧ (127 : Nat) ≤ 127 :=
  ⟨by rfl,
    mus_noteOn_vel_clamped c10bytes c10smf (by rfl) c10track (by decide)
      ⟨0, .Midi 0 (.NoteOn 62 127)⟩ (by decide) 0 62 127 rfl⟩

end WadMusic

